import Mathlib

/- Verification of the Minesweeper inference engine (minesweeper.py):
   the Sentence class, the MinesweeperAI knowledge base, and the move
   selection functions, shallowly embedded as pure functions on explicit
   state. Cells are integer coordinate pairs, as in the Python source.
   Python sets are modelled as Finsets; where the source iterates over a
   set or pops an element (an unspecified order in Python), the embedding
   fixes the lexicographic order on coordinates. -/

abbrev Cell : Type := ℤ × ℤ

/-- Lexicographic order on cells, used to fix the iteration order of
Python set loops and the choice made by Python set pop. -/
def cellLe (a b : Cell) : Prop :=
  a.1 < b.1 ∨ (a.1 = b.1 ∧ a.2 ≤ b.2)

instance : DecidableRel cellLe := by
  intro a b
  unfold cellLe
  exact inferInstance

instance : IsTrans Cell cellLe := by
  constructor
  intro a b c hab hbc
  rcases hab with h1 | ⟨h1, h2⟩ <;> rcases hbc with h3 | ⟨h3, h4⟩
  · exact Or.inl (lt_trans h1 h3)
  · exact Or.inl (h3 ▸ h1)
  · exact Or.inl (h1 ▸ h3)
  · exact Or.inr ⟨h1.trans h3, le_trans h2 h4⟩

instance : IsAntisymm Cell cellLe := by
  constructor
  intro a b hab hba
  rcases hab with h1 | ⟨h1, h2⟩ <;> rcases hba with h3 | ⟨h3, h4⟩
  · exact absurd h3 (not_lt_of_lt h1)
  · exact absurd h3.symm (ne_of_lt h1)
  · exact absurd h1.symm (ne_of_lt h3)
  · exact Prod.ext h1 (le_antisymm h2 h4)

instance : IsTotal Cell cellLe := by
  constructor
  intro a b
  rcases lt_trichotomy a.1 b.1 with h | h | h
  · exact Or.inl (Or.inl h)
  · rcases le_total a.2 b.2 with h2 | h2
    · exact Or.inl (Or.inr ⟨h, h2⟩)
    · exact Or.inr (Or.inr ⟨h.symm, h2⟩)
  · exact Or.inr (Or.inl h)

/-- Sorted list of the elements of a multiset of cells, by insertion
sort (structural recursion, so the kernel can evaluate it). -/
def cellSortM : Multiset Cell → List Cell :=
  Quot.lift (fun l => List.insertionSort cellLe l) (fun l l' h =>
    List.eq_of_perm_of_sorted
      ((List.perm_insertionSort cellLe l).trans
        (h.trans (List.perm_insertionSort cellLe l').symm))
      (List.sorted_insertionSort cellLe l)
      (List.sorted_insertionSort cellLe l'))

/-- Iteration order for a Python set of cells. -/
def cellSort (s : Finset Cell) : List Cell :=
  cellSortM s.val

/-- Sentence: a set of board cells together with the count of mines among
them, plus the accumulated per-sentence records of resolved mine and safe
cells (fields mines and safes of the Python class). -/
structure Sentence where
  cells : Finset Cell
  count : ℤ
  mines : Finset Cell
  safes : Finset Cell
  deriving DecidableEq

/-- Sentence.mark_mine: if the cell is in cells, move it to the mine
record and decrement count; otherwise no-op. -/
def Sentence.mark_mine (s : Sentence) (c : Cell) : Sentence :=
  if c ∈ s.cells then
    { cells := s.cells.erase c, count := s.count - 1,
      mines := insert c s.mines, safes := s.safes }
  else s

/-- Sentence.mark_safe: if the cell is in cells, move it to the safe
record, count unchanged; otherwise no-op. -/
def Sentence.mark_safe (s : Sentence) (c : Cell) : Sentence :=
  if c ∈ s.cells then
    { cells := s.cells.erase c, count := s.count,
      mines := s.mines, safes := insert c s.safes }
  else s

/-- State of the MinesweeperAI object: board dimensions, the moves made,
the global known-mine and known-safe sets, and the knowledge list. -/
structure MinesweeperAI where
  height : ℤ
  width : ℤ
  moves_made : Finset Cell
  mines : Finset Cell
  safes : Finset Cell
  knowledge : List Sentence
  deriving DecidableEq

/-- The set all_moves computed in MinesweeperAI.__init__:
itertools.product(range(height), range(width)). -/
def all_moves (h w : ℤ) : Finset Cell :=
  Finset.Icc 0 (h - 1) ×ˢ Finset.Icc 0 (w - 1)

/-- The set ghost_cells computed in MinesweeperAI.__init__: the product
of range(-1, height+1) and range(-1, width+1) minus all_moves, i.e. the
out-of-board ring around the board. -/
def ghost_cells (h w : ℤ) : Finset Cell :=
  (Finset.Icc (-1) h ×ˢ Finset.Icc (-1) w) \ all_moves h w

/-- MinesweeperAI.__init__ with no moves made and empty knowledge. -/
def MinesweeperAI.init (h w : ℤ) : MinesweeperAI :=
  { height := h, width := w, moves_made := ∅, mines := ∅, safes := ∅,
    knowledge := [] }

/-- MinesweeperAI.mark_mine: add the cell to the global mines set and
call Sentence.mark_mine on every sentence in knowledge. -/
def MinesweeperAI.mark_mine (st : MinesweeperAI) (c : Cell) : MinesweeperAI :=
  { st with mines := insert c st.mines,
            knowledge := st.knowledge.map (fun s => s.mark_mine c) }

/-- MinesweeperAI.mark_safe: add the cell to the global safes set and
call Sentence.mark_safe on every sentence in knowledge. -/
def MinesweeperAI.mark_safe (st : MinesweeperAI) (c : Cell) : MinesweeperAI :=
  { st with safes := insert c st.safes,
            knowledge := st.knowledge.map (fun s => s.mark_safe c) }

/-- The inner loop of add_knowledge marking each cell of a snapshot safe. -/
def markSafeList (st : MinesweeperAI) (cs : List Cell) : MinesweeperAI :=
  cs.foldl MinesweeperAI.mark_safe st

/-- The inner loop of add_knowledge marking each cell of a snapshot as a
mine. -/
def markMineList (st : MinesweeperAI) (cs : List Cell) : MinesweeperAI :=
  cs.foldl MinesweeperAI.mark_mine st

/-- First half of one iteration of the add_knowledge propagation loop,
for the sentence at position k of the live knowledge list: if its count
is 0, mark a snapshot of its cells safe. -/
def passStepSafe (st : MinesweeperAI) (k : ℕ) : MinesweeperAI :=
  match st.knowledge.get? k with
  | none => st
  | some s => if s.count = 0 then markSafeList st (cellSort s.cells) else st

/-- Second half of one iteration of the add_knowledge propagation loop:
re-reading the (possibly just mutated) sentence at position k, if its
number of cells equals its count, mark a snapshot of its cells as
mines. -/
def passStepMine (st : MinesweeperAI) (k : ℕ) : MinesweeperAI :=
  match st.knowledge.get? k with
  | none => st
  | some s =>
    if (s.cells.card : ℤ) = s.count then markMineList st (cellSort s.cells)
    else st

/-- One iteration of the add_knowledge propagation loop: the count-0
check followed by the full-count check on the same live position. -/
def passStep (st : MinesweeperAI) (k : ℕ) : MinesweeperAI :=
  passStepMine (passStepSafe st k) k

/-- The propagation loop of add_knowledge: a single in-order pass over
the knowledge list (the list length never changes during the pass; the
sentences are mutated in place). -/
def propagate (st : MinesweeperAI) : MinesweeperAI :=
  (List.range st.knowledge.length).foldl passStep st

/-- The neighbor set computed in add_knowledge: the 3 by 3 square around
the cell, minus the cell itself, minus ghost_cells. -/
def neighborsOf (h w : ℤ) (c : Cell) : Finset Cell :=
  ((Finset.Icc (c.1 - 1) (c.1 + 1) ×ˢ Finset.Icc (c.2 - 1) (c.2 + 1)).erase c)
    \ ghost_cells h w

/-- MinesweeperAI.add_knowledge: record the move, add the revealed cell
directly to the safes set (the source does not call mark_safe here),
append the new sentence over the neighbor set, then run the propagation
pass. -/
def MinesweeperAI.add_knowledge (st : MinesweeperAI) (c : Cell) (count : ℤ) :
    MinesweeperAI :=
  let st1 : MinesweeperAI :=
    { st with moves_made := insert c st.moves_made,
              safes := insert c st.safes }
  let st2 : MinesweeperAI :=
    { st1 with knowledge := st1.knowledge ++
        [{ cells := neighborsOf st.height st.width c, count := count,
           mines := ∅, safes := ∅ }] }
  propagate st2

/-- MinesweeperAI.make_safe_move: raises when moves_made is not a subset
of safes (modelled as Except.error); otherwise returns an element of
safes minus moves_made, or none when that set is empty (Python set pop
is modelled as taking the least cell). The source mutates nothing. -/
def MinesweeperAI.make_safe_move (st : MinesweeperAI) :
    Except Unit (Option Cell) :=
  if st.moves_made ⊆ st.safes then
    Except.ok (cellSort (st.safes \ st.moves_made)).head?
  else
    Except.error ()

/-- MinesweeperAI.make_random_move: pops an element of all_moves minus
(mines union moves_made); popping the empty set raises KeyError in
Python, modelled here as none. The source mutates no field of the AI. -/
def MinesweeperAI.make_random_move (st : MinesweeperAI) : Option Cell :=
  (cellSort (all_moves st.height st.width \ (st.mines ∪ st.moves_made))).head?

/-- Run a sequence of add_knowledge calls (clue per revealed cell). -/
def runTrace (st : MinesweeperAI) (tr : List (Cell × ℤ)) : MinesweeperAI :=
  tr.foldl (fun s p => s.add_knowledge p.1 p.2) st

/-- The public operations of the knowledge base. The two move functions
mutate nothing in the source (they only read state and build a fresh
set), so they act as the identity on the state. -/
inductive Op where
  | clue (c : Cell) (n : ℤ)
  | msafe (c : Cell)
  | mmine (c : Cell)
  | smove
  | rmove
  deriving DecidableEq

/-- Apply one public operation to the state. -/
def applyOp (st : MinesweeperAI) : Op → MinesweeperAI
  | Op.clue c n => st.add_knowledge c n
  | Op.msafe c => st.mark_safe c
  | Op.mmine c => st.mark_mine c
  | Op.smove => st
  | Op.rmove => st

/-- Run a sequence of public operations. -/
def runOps (st : MinesweeperAI) (ops : List Op) : MinesweeperAI :=
  ops.foldl applyOp st

/-- Minesweeper.nearby_mines for a board of true mine set M: the number
of in-bounds cells of the 3 by 3 square around the cell, the cell itself
excluded, that are mines. -/
def nearby_mines (h w : ℤ) (M : Finset Cell) (c : Cell) : ℤ :=
  (((Finset.Icc (c.1 - 1) (c.1 + 1) ×ˢ Finset.Icc (c.2 - 1) (c.2 + 1)).erase c).filter
    (fun p => 0 ≤ p.1 ∧ p.1 < h ∧ 0 ≤ p.2 ∧ p.2 < w ∧ p ∈ M)).card

/-- The union of the unresolved cell sets of all sentences in the
knowledge list. -/
def knowledgeCells (st : MinesweeperAI) : Finset Cell :=
  st.knowledge.foldr (fun s acc => s.cells ∪ acc) ∅

/-- A sentence on which neither propagation rule can fire: its cells are
exhausted, or its count is neither zero nor the number of its cells. -/
def settled (s : Sentence) : Prop :=
  s.cells.card = 0 ∨ (s.count ≠ 0 ∧ (s.cells.card : ℤ) ≠ s.count)

/-- All knowledge held by the AI is true of the mine layout M on a board
of the given dimensions: no known-safe cell is a mine, every known mine
is a mine, and every sentence counts exactly the mines among its cells. -/
structure Consistent (hb wb : ℤ) (M : Finset Cell) (st : MinesweeperAI) :
    Prop where
  height_eq : st.height = hb
  width_eq : st.width = wb
  safes_not_mine : ∀ x ∈ st.safes, x ∉ M
  mines_sub : st.mines ⊆ M
  sent_true : ∀ s ∈ st.knowledge, s.count = ((s.cells ∩ M).card : ℤ)

/-- Validity of one public operation with respect to a fixed layout M:
clues carry the true neighbor count of a revealed non-mine cell, global
safe marks are applied only to non-mines, global mine marks only to
mines; the two move operations only read the state. -/
def ValidOp (hb wb : ℤ) (M : Finset Cell) : Op → Prop
  | Op.clue c n => c ∉ M ∧ n = nearby_mines hb wb M c
  | Op.msafe c => c ∉ M
  | Op.mmine c => c ∈ M
  | Op.smove => True
  | Op.rmove => True

instance (hb wb : ℤ) (M : Finset Cell) : DecidablePred (ValidOp hb wb M) := by
  intro o
  cases o <;> unfold ValidOp <;> infer_instance

/-- The revealed cells of Scenario A (claim C8) in the order chosen by
make_safe_move, paired with their true neighbor counts for the single
mine at (0,0) on the 3 by 3 board. -/
def trace8 : List (Cell × ℤ) :=
  [((2,2),0),((1,1),1),((1,2),0),((0,1),1),((0,2),0),((2,1),0),((1,0),1),((2,0),0)]

/-- The two clues of the counterexample to claim C7: 1 by 4 board, mine
at (0,0); reveal (0,1) then (0,3), with true counts. -/
def trace7 : List (Cell × ℤ) := [((0,1),1),((0,3),0)]

/-- The two clues of the counterexample to claim C3: 1 by 4 board, mine
at (0,2); reveal (0,1) then (0,3), with true counts. -/
def trace3 : List (Cell × ℤ) := [((0,1),1),((0,3),1)]

/- Theorems. First, basic lemmas about cellSort and the sentence
operations. -/

theorem mem_cellSortM {m : Multiset Cell} {c : Cell} :
    c ∈ cellSortM m ↔ c ∈ m :=
  Quot.inductionOn m fun l => (List.perm_insertionSort cellLe l).mem_iff

theorem mem_cellSort {s : Finset Cell} {c : Cell} : c ∈ cellSort s ↔ c ∈ s :=
  mem_cellSortM

theorem Sentence.cells_mark_safe (s : Sentence) (c : Cell) :
    (s.mark_safe c).cells = s.cells.erase c := by
  unfold Sentence.mark_safe
  split
  · rfl
  · next h => exact (Finset.erase_eq_of_not_mem h).symm

theorem Sentence.cells_mark_mine (s : Sentence) (c : Cell) :
    (s.mark_mine c).cells = s.cells.erase c := by
  unfold Sentence.mark_mine
  split
  · rfl
  · next h => exact (Finset.erase_eq_of_not_mem h).symm

theorem Sentence.count_mark_safe (s : Sentence) (c : Cell) :
    (s.mark_safe c).count = s.count := by
  unfold Sentence.mark_safe
  split <;> rfl

theorem head?_mem {l : List Cell} {c : Cell} (h : l.head? = some c) : c ∈ l := by
  cases l with
  | nil => simp at h
  | cons a t =>
    simp only [List.head?_cons, Option.some.injEq] at h
    exact h ▸ List.mem_cons_self a t

theorem cellSort_nil_iff {s : Finset Cell} : cellSort s = [] ↔ s = ∅ := by
  constructor
  · intro h
    apply Finset.eq_empty_of_forall_not_mem
    intro x hx
    have : x ∈ cellSort s := mem_cellSort.mpr hx
    rw [h] at this
    exact absurd this (List.not_mem_nil x)
  · intro h
    subst h
    rfl

theorem Sentence.mark_safe_of_not_mem {s : Sentence} {c : Cell}
    (h : c ∉ s.cells) : s.mark_safe c = s := by
  unfold Sentence.mark_safe
  simp [h]

theorem Sentence.mark_mine_of_not_mem {s : Sentence} {c : Cell}
    (h : c ∉ s.cells) : s.mark_mine c = s := by
  unfold Sentence.mark_mine
  simp [h]

theorem Sentence.mark_safe_idem (s : Sentence) (c : Cell) :
    (s.mark_safe c).mark_safe c = s.mark_safe c :=
  Sentence.mark_safe_of_not_mem
    (by rw [Sentence.cells_mark_safe]; exact Finset.not_mem_erase c s.cells)

theorem Sentence.mark_mine_idem (s : Sentence) (c : Cell) :
    (s.mark_mine c).mark_mine c = s.mark_mine c :=
  Sentence.mark_mine_of_not_mem
    (by rw [Sentence.cells_mark_mine]; exact Finset.not_mem_erase c s.cells)

theorem mem_knowledgeCells {st : MinesweeperAI} {x : Cell} :
    x ∈ knowledgeCells st ↔ ∃ s ∈ st.knowledge, x ∈ s.cells := by
  unfold knowledgeCells
  induction st.knowledge with
  | nil => simp
  | cons a t ih => simp [ih]

/-- C6: marking a cell globally safe (or globally a mine) twice leaves
the whole state, every per-sentence record included, identical to
marking it once. -/
theorem claim_C6_idempotence (st : MinesweeperAI) (c : Cell) :
    (st.mark_safe c).mark_safe c = st.mark_safe c ∧
    (st.mark_mine c).mark_mine c = st.mark_mine c := by
  constructor
  · simp only [MinesweeperAI.mark_safe, Finset.insert_idem, List.map_map,
      MinesweeperAI.mk.injEq, and_true, true_and]
    exact List.map_congr_left fun s _ => Sentence.mark_safe_idem s c
  · simp only [MinesweeperAI.mark_mine, Finset.insert_idem, List.map_map,
      MinesweeperAI.mk.injEq, and_true, true_and]
    exact List.map_congr_left fun s _ => Sentence.mark_mine_idem s c

/-- C2 (amended): immediately after mark_safe(c) or mark_mine(c), the
cell c is absent from the cell set of every current sentence. The original
claim fails because add_knowledge adds the revealed cell to the safes
set directly without calling mark_safe, so the revealed cell stays in
the cell sets of older sentences (see the counterexample). -/
theorem claim_C2_mark_removes_cell (st : MinesweeperAI) (c : Cell) :
    c ∉ knowledgeCells (st.mark_safe c) ∧
    c ∉ knowledgeCells (st.mark_mine c) := by
  constructor
  · intro hc
    rcases mem_knowledgeCells.mp hc with ⟨s, hs, hcs⟩
    simp only [MinesweeperAI.mark_safe, List.mem_map] at hs
    rcases hs with ⟨s0, _, rfl⟩
    rw [Sentence.cells_mark_safe] at hcs
    exact Finset.not_mem_erase c s0.cells hcs
  · intro hc
    rcases mem_knowledgeCells.mp hc with ⟨s, hs, hcs⟩
    simp only [MinesweeperAI.mark_mine, List.mem_map] at hs
    rcases hs with ⟨s0, _, rfl⟩
    rw [Sentence.cells_mark_mine] at hcs
    exact Finset.not_mem_erase c s0.cells hcs

/-- C2 (counterexample): on a 2 by 2 board with the mine at (0,0), after
the two consistent clues ((1,1),1) and ((0,1),1), the revealed cell
(0,1) is in the global safes set yet still lies in the cell set of a
sentence of the knowledge list, refuting the claimed invariant. -/
theorem claim_C2_counterexample :
    nearby_mines 2 2 {((0:ℤ),(0:ℤ))} (1,1) = 1 ∧
    nearby_mines 2 2 {((0:ℤ),(0:ℤ))} (0,1) = 1 ∧
    ((1:ℤ),(1:ℤ)) ∉ ({((0:ℤ),(0:ℤ))} : Finset Cell) ∧
    ((0:ℤ),(1:ℤ)) ∉ ({((0:ℤ),(0:ℤ))} : Finset Cell) ∧
    ((0:ℤ),(1:ℤ)) ∈ (runTrace (MinesweeperAI.init 2 2) [((1,1),1),((0,1),1)]).safes ∧
    ((0:ℤ),(1:ℤ)) ∈ knowledgeCells (runTrace (MinesweeperAI.init 2 2) [((1,1),1),((0,1),1)]) := by
  decide

/-- Claim C9 (Scenario B, confirmed): 2 by 2 board, mine at (0,0); the
clue ((1,1),1) is the true neighbor count; afterwards the knowledge list
is exactly the sentence with cells (0,0),(0,1),(1,0) and count 1, the
safes set is exactly the revealed cell (1,1), the mines set is empty,
make_safe_move returns none (no error), and make_random_move returns a
member of the sentence cell set. -/
theorem claim_C9_scenarioB :
    nearby_mines 2 2 {((0:ℤ),(0:ℤ))} (1,1) = 1 ∧
    ((1:ℤ),(1:ℤ)) ∉ ({((0:ℤ),(0:ℤ))} : Finset Cell) ∧
    ((runTrace (MinesweeperAI.init 2 2) [((1,1),1)]).knowledge.map
      (fun s => (cellSort s.cells, s.count))) = [([(0,0),(0,1),(1,0)], 1)] ∧
    cellSort (runTrace (MinesweeperAI.init 2 2) [((1,1),1)]).safes = [(1,1)] ∧
    cellSort (runTrace (MinesweeperAI.init 2 2) [((1,1),1)]).mines = [] ∧
    ((runTrace (MinesweeperAI.init 2 2) [((1,1),1)]).make_safe_move).toOption =
      some none ∧
    (runTrace (MinesweeperAI.init 2 2) [((1,1),1)]).make_random_move =
      some (0,0) ∧
    ((0:ℤ),(0:ℤ)) ∈ ({((0:ℤ),(0:ℤ)),((0:ℤ),(1:ℤ)),((1:ℤ),(0:ℤ))} : Finset Cell) := by
  decide

/-- Claim C8 (counterexample): on the 3 by 3 board with the single mine
at (0,0), the clue ((2,2),0) is consistent, the cell (0,1) is a non-mine
board cell, yet after the call (0,1) is not in safes, so the call does
not mark all 8 remaining cells safe. -/
theorem claim_C8_counterexample :
    nearby_mines 3 3 {((0:ℤ),(0:ℤ))} (2,2) = 0 ∧
    ((0:ℤ),(1:ℤ)) ∈ all_moves 3 3 ∧
    ((0:ℤ),(1:ℤ)) ∉ ({((0:ℤ),(0:ℤ))} : Finset Cell) ∧
    ((0:ℤ),(1:ℤ)) ∉ (runTrace (MinesweeperAI.init 3 3) [((2,2),0)]).safes := by
  decide

/-- Claim C8 (amended): revealing (2,2) with count 0 immediately marks
only the three neighbors (1,1),(1,2),(2,1) safe (together with (2,2)
itself); make_safe_move then returns one of them, and playing the cell
make_safe_move returns after each consistent clue reveals all eight
non-mine cells without make_random_move ever being needed: every clue of
trace8 is the true count, after each of the first seven calls
make_safe_move returns exactly the next revealed cell, and after the
eighth it returns none with every non-mine cell played. -/
theorem claim_C8_scenarioA_amended :
    (∀ p ∈ trace8, p.1 ∉ ({((0:ℤ),(0:ℤ))} : Finset Cell) ∧
      p.2 = nearby_mines 3 3 {((0:ℤ),(0:ℤ))} p.1) ∧
    cellSort (runTrace (MinesweeperAI.init 3 3) [((2,2),0)]).safes =
      [(1,1),(1,2),(2,1),(2,2)] ∧
    ((runTrace (MinesweeperAI.init 3 3) [((2,2),0)]).make_safe_move).toOption =
      some (some (1,1)) ∧
    (∀ k ∈ List.range 7,
      ((runTrace (MinesweeperAI.init 3 3) (trace8.take (k+1))).make_safe_move).toOption =
        some (some ((trace8.map (fun p : Cell × ℤ => p.1)).getD (k+1) (0,0)))) ∧
    ((runTrace (MinesweeperAI.init 3 3) trace8).make_safe_move).toOption =
      some none ∧
    cellSort (runTrace (MinesweeperAI.init 3 3) trace8).moves_made =
      [(0,1),(0,2),(1,0),(1,1),(1,2),(2,0),(2,1),(2,2)] ∧
    cellSort (all_moves 3 3 \ {((0:ℤ),(0:ℤ))}) =
      [(0,1),(0,2),(1,0),(1,1),(1,2),(2,0),(2,1),(2,2)] := by
  decide

/-- Claim C7 (counterexample): both clues of trace7 are consistent with
the mine at (0,0) on the 1 by 4 board; after the first call the first
sentence is cells (0,0),(0,2) with count 1; during the second call the
cell (0,2) becomes known safe and is removed, so when the second call
returns the first sentence is the singleton (0,0) with count 1 - yet
(0,0) is not in the mines set. -/
theorem claim_C7_counterexample :
    (∀ p ∈ trace7, p.1 ∉ ({((0:ℤ),(0:ℤ))} : Finset Cell) ∧
      p.2 = nearby_mines 1 4 {((0:ℤ),(0:ℤ))} p.1) ∧
    ((runTrace (MinesweeperAI.init 1 4) (trace7.take 1)).knowledge.map
      (fun s => (cellSort s.cells, s.count))).get? 0 = some ([(0,0),(0,2)], 1) ∧
    ((0:ℤ),(2:ℤ)) ∈ (runTrace (MinesweeperAI.init 1 4) trace7).safes ∧
    ((runTrace (MinesweeperAI.init 1 4) trace7).knowledge.map
      (fun s => (cellSort s.cells, s.count))).get? 0 = some ([(0,0)], 1) ∧
    ((0:ℤ),(0:ℤ)) ∉ (runTrace (MinesweeperAI.init 1 4) trace7).mines := by
  decide

/-- Claim C7 (amended): the full-count rule fires for a shrunken
sentence only when the propagation pass visits that sentence after the
shrinkage; a sentence that becomes a singleton with count 1 after its
position in the single pass was already visited is resolved by the scan
of the NEXT add_knowledge call, not by the call that shrank it. In the
trace7 state, one further consistent clue ((0,2),0) makes the pass visit
the singleton sentence and puts (0,0) into mines. -/
theorem claim_C7_next_call_amended :
    nearby_mines 1 4 {((0:ℤ),(0:ℤ))} (0,2) = 0 ∧
    ((0:ℤ),(2:ℤ)) ∉ ({((0:ℤ),(0:ℤ))} : Finset Cell) ∧
    ((0:ℤ),(0:ℤ)) ∈ (runTrace (MinesweeperAI.init 1 4) (trace7 ++ [((0,2),0)])).mines := by
  decide

/-- Claim C3 (counterexample): both clues of trace3 are consistent with
the mine at (0,2) on the 1 by 4 board; when the second add_knowledge
call returns, the first sentence of the knowledge list has count 0 and
the non-empty cell set (0,0), and (0,0) is not in safes: the single
propagation pass is not a fixpoint, because the first sentence shrank
only during the visit of the later sentence. -/
theorem claim_C3_counterexample :
    (∀ p ∈ trace3, p.1 ∉ ({((0:ℤ),(2:ℤ))} : Finset Cell) ∧
      p.2 = nearby_mines 1 4 {((0:ℤ),(2:ℤ))} p.1) ∧
    ((runTrace (MinesweeperAI.init 1 4) trace3).knowledge.map
      (fun s => (cellSort s.cells, s.count))).get? 0 = some ([(0,0)], 0) ∧
    ((0:ℤ),(0:ℤ)) ∉ (runTrace (MinesweeperAI.init 1 4) trace3).safes := by
  decide

/- Lemmas on the shape of the propagation pass, for claim C3. -/

theorem markSafeList_knowledge (cs : List Cell) (st : MinesweeperAI) :
    (markSafeList st cs).knowledge =
      st.knowledge.map (fun s => cs.foldl Sentence.mark_safe s) := by
  induction cs generalizing st with
  | nil => simp [markSafeList]
  | cons c cs ih =>
    show (markSafeList (st.mark_safe c) cs).knowledge = _
    rw [ih]
    show (st.knowledge.map (fun s => s.mark_safe c)).map _ = _
    rw [List.map_map]
    rfl

theorem markMineList_knowledge (cs : List Cell) (st : MinesweeperAI) :
    (markMineList st cs).knowledge =
      st.knowledge.map (fun s => cs.foldl Sentence.mark_mine s) := by
  induction cs generalizing st with
  | nil => simp [markMineList]
  | cons c cs ih =>
    show (markMineList (st.mark_mine c) cs).knowledge = _
    rw [ih]
    show (st.knowledge.map (fun s => s.mark_mine c)).map _ = _
    rw [List.map_map]
    rfl

theorem foldl_mark_safe_cells (cs : List Cell) (s : Sentence) :
    (cs.foldl Sentence.mark_safe s).cells = cs.foldl Finset.erase s.cells := by
  induction cs generalizing s with
  | nil => rfl
  | cons c cs ih =>
    show (cs.foldl Sentence.mark_safe (s.mark_safe c)).cells = _
    rw [ih, Sentence.cells_mark_safe]
    rfl

theorem foldl_mark_mine_cells (cs : List Cell) (s : Sentence) :
    (cs.foldl Sentence.mark_mine s).cells = cs.foldl Finset.erase s.cells := by
  induction cs generalizing s with
  | nil => rfl
  | cons c cs ih =>
    show (cs.foldl Sentence.mark_mine (s.mark_mine c)).cells = _
    rw [ih, Sentence.cells_mark_mine]
    rfl

theorem foldl_mark_safe_count (cs : List Cell) (s : Sentence) :
    (cs.foldl Sentence.mark_safe s).count = s.count := by
  induction cs generalizing s with
  | nil => rfl
  | cons c cs ih =>
    show (cs.foldl Sentence.mark_safe (s.mark_safe c)).count = _
    rw [ih, Sentence.count_mark_safe]

theorem foldl_erase_eq_empty {cs : List Cell} {t : Finset Cell}
    (h : ∀ x ∈ t, x ∈ cs) : cs.foldl Finset.erase t = ∅ := by
  induction cs generalizing t with
  | nil =>
    exact Finset.eq_empty_of_forall_not_mem fun x hx =>
      (List.not_mem_nil x (h x hx)).elim
  | cons c cs ih =>
    show cs.foldl Finset.erase (t.erase c) = ∅
    apply ih
    intro x hx
    have hxt := Finset.mem_of_mem_erase hx
    have hxc := Finset.ne_of_mem_erase hx
    rcases List.mem_cons.mp (h x hxt) with h1 | h1
    · exact absurd h1 hxc
    · exact h1

theorem markSafeList_full_cells (s : Sentence) :
    ((cellSort s.cells).foldl Sentence.mark_safe s).cells = ∅ := by
  rw [foldl_mark_safe_cells]
  exact foldl_erase_eq_empty fun x hx => mem_cellSort.mpr hx

theorem markMineList_full_cells (s : Sentence) :
    ((cellSort s.cells).foldl Sentence.mark_mine s).cells = ∅ := by
  rw [foldl_mark_mine_cells]
  exact foldl_erase_eq_empty fun x hx => mem_cellSort.mpr hx

theorem passStepSafe_get? (st : MinesweeperAI) (k : ℕ) (s : Sentence)
    (h : (passStepSafe st k).knowledge.get? k = some s) :
    s.count ≠ 0 ∨ s.cells.card = 0 := by
  unfold passStepSafe at h
  cases h0 : st.knowledge.get? k with
  | none =>
    rw [h0] at h
    simp only [h0] at h
    simp at h
  | some s0 =>
    rw [h0] at h
    simp only at h
    by_cases hc : s0.count = 0
    · rw [if_pos hc] at h
      rw [markSafeList_knowledge, List.get?_map, h0] at h
      simp only [Option.map_some', Option.some.injEq] at h
      subst h
      right
      rw [markSafeList_full_cells]
      rfl
    · rw [if_neg hc] at h
      rw [h0] at h
      simp only [Option.some.injEq] at h
      subst h
      exact Or.inl hc

theorem passStepMine_settled (st : MinesweeperAI) (k : ℕ)
    (hst : ∀ s', st.knowledge.get? k = some s' →
      s'.count ≠ 0 ∨ s'.cells.card = 0)
    (s : Sentence) (h : (passStepMine st k).knowledge.get? k = some s) :
    settled s := by
  unfold passStepMine at h
  cases h0 : st.knowledge.get? k with
  | none =>
    rw [h0] at h
    simp only [h0] at h
    simp at h
  | some s1 =>
    rw [h0] at h
    simp only at h
    by_cases hcard : (s1.cells.card : ℤ) = s1.count
    · rw [if_pos hcard] at h
      rw [markMineList_knowledge, List.get?_map, h0] at h
      simp only [Option.map_some', Option.some.injEq] at h
      subst h
      left
      rw [markMineList_full_cells]
      rfl
    · rw [if_neg hcard] at h
      rw [h0] at h
      simp only [Option.some.injEq] at h
      subst h
      rcases hst s1 h0 with h1 | h1
      · exact Or.inr ⟨h1, hcard⟩
      · exact Or.inl h1

theorem passStep_settled (st : MinesweeperAI) (k : ℕ) (s : Sentence)
    (h : (passStep st k).knowledge.get? k = some s) : settled s :=
  passStepMine_settled (passStepSafe st k) k
    (fun s' hs' => passStepSafe_get? st k s' hs') s h

theorem mark_safe_knowledge_length (st : MinesweeperAI) (c : Cell) :
    (st.mark_safe c).knowledge.length = st.knowledge.length :=
  List.length_map _ _

theorem mark_mine_knowledge_length (st : MinesweeperAI) (c : Cell) :
    (st.mark_mine c).knowledge.length = st.knowledge.length :=
  List.length_map _ _

theorem markSafeList_knowledge_length (cs : List Cell) (st : MinesweeperAI) :
    (markSafeList st cs).knowledge.length = st.knowledge.length := by
  rw [markSafeList_knowledge]
  exact List.length_map _ _

theorem markMineList_knowledge_length (cs : List Cell) (st : MinesweeperAI) :
    (markMineList st cs).knowledge.length = st.knowledge.length := by
  rw [markMineList_knowledge]
  exact List.length_map _ _

theorem passStepSafe_knowledge_length (st : MinesweeperAI) (k : ℕ) :
    (passStepSafe st k).knowledge.length = st.knowledge.length := by
  unfold passStepSafe
  cases h0 : st.knowledge.get? k with
  | none => rfl
  | some s0 =>
    by_cases hc : s0.count = 0
    · simp only [hc, if_true]
      exact markSafeList_knowledge_length _ _
    · simp only [hc, if_false]

theorem passStepMine_knowledge_length (st : MinesweeperAI) (k : ℕ) :
    (passStepMine st k).knowledge.length = st.knowledge.length := by
  unfold passStepMine
  cases h0 : st.knowledge.get? k with
  | none => rfl
  | some s0 =>
    by_cases hc : (s0.cells.card : ℤ) = s0.count
    · simp only [hc, if_true]
      exact markMineList_knowledge_length _ _
    · simp only [hc, if_false]

theorem passStep_knowledge_length (st : MinesweeperAI) (k : ℕ) :
    (passStep st k).knowledge.length = st.knowledge.length := by
  unfold passStep
  rw [passStepMine_knowledge_length, passStepSafe_knowledge_length]

theorem foldl_passStep_knowledge_length (l : List ℕ) (st : MinesweeperAI) :
    (l.foldl passStep st).knowledge.length = st.knowledge.length := by
  induction l generalizing st with
  | nil => rfl
  | cons k l ih =>
    show ((l.foldl passStep (passStep st k)).knowledge).length = _
    rw [ih, passStep_knowledge_length]

/-- Claim C3 (amended): the propagation pass is a single in-order scan,
not a fixpoint loop; what holds when add_knowledge returns is that the
newly appended sentence - the last element of the knowledge list - is
settled: its cells are exhausted, or its count is neither 0 nor its
number of cells. Earlier sentences may be left violating the fixpoint
conditions (see the counterexample). -/
theorem claim_C3_last_settled (st : MinesweeperAI) (c : Cell) (n : ℤ) :
    settled (((st.add_knowledge c n).knowledge.getLast?).getD
      { cells := ∅, count := 0, mines := ∅, safes := ∅ }) := by
  unfold MinesweeperAI.add_knowledge
  set st2 : MinesweeperAI :=
    { st with moves_made := insert c st.moves_made,
              safes := insert c st.safes,
              knowledge := st.knowledge ++
                [{ cells := neighborsOf st.height st.width c, count := n,
                   mines := ∅, safes := ∅ }] } with hst2
  have hlen : st2.knowledge.length = st.knowledge.length + 1 := by
    rw [hst2]
    simp
  show settled (((propagate st2).knowledge.getLast?).getD _)
  unfold propagate
  rw [hlen, List.range_succ, List.foldl_append]
  set stm : MinesweeperAI :=
    (List.range st.knowledge.length).foldl passStep st2 with hstm
  have hlenm : (passStep stm st.knowledge.length).knowledge.length =
      st.knowledge.length + 1 := by
    rw [passStep_knowledge_length, hstm, foldl_passStep_knowledge_length, hlen]
  show settled (((passStep stm st.knowledge.length).knowledge.getLast?).getD _)
  rw [List.getLast?_eq_get?, hlenm]
  simp only [Nat.add_sub_cancel]
  cases hget : (passStep stm st.knowledge.length).knowledge.get?
      st.knowledge.length with
  | none =>
    rw [List.get?_eq_none] at hget
    rw [hlenm] at hget
    omega
  | some s =>
    simp only [List.foldl_cons, List.foldl_nil, Option.getD_some]
    exact passStep_settled stm st.knowledge.length s hget

/- Soundness machinery for claims C1 and C4: every fact the engine
derives stays true of a fixed mine layout M. -/

theorem erase_inter_of_not_mem {t M : Finset Cell} {c : Cell} (hc : c ∉ M) :
    t.erase c ∩ M = t ∩ M := by
  ext x
  simp only [Finset.mem_inter, Finset.mem_erase]
  constructor
  · rintro ⟨⟨_, hx⟩, hM⟩
    exact ⟨hx, hM⟩
  · rintro ⟨hx, hM⟩
    exact ⟨⟨fun e => hc (e ▸ hM), hx⟩, hM⟩

theorem erase_inter (t M : Finset Cell) (c : Cell) :
    t.erase c ∩ M = (t ∩ M).erase c := by
  ext x
  simp only [Finset.mem_inter, Finset.mem_erase]
  tauto

theorem sentence_true_mark_safe {M : Finset Cell} {s : Sentence} {c : Cell}
    (hs : s.count = ((s.cells ∩ M).card : ℤ)) (hc : c ∉ M) :
    (s.mark_safe c).count = (((s.mark_safe c).cells ∩ M).card : ℤ) := by
  rw [Sentence.count_mark_safe, Sentence.cells_mark_safe,
    erase_inter_of_not_mem hc]
  exact hs

theorem sentence_true_mark_mine {M : Finset Cell} {s : Sentence} {c : Cell}
    (hs : s.count = ((s.cells ∩ M).card : ℤ)) (hc : c ∈ M) :
    (s.mark_mine c).count = (((s.mark_mine c).cells ∩ M).card : ℤ) := by
  by_cases hm : c ∈ s.cells
  · have hcm : c ∈ s.cells ∩ M := Finset.mem_inter.mpr ⟨hm, hc⟩
    have hcount : (s.mark_mine c).count = s.count - 1 := by
      unfold Sentence.mark_mine
      rw [if_pos hm]
    rw [hcount, Sentence.cells_mark_mine, erase_inter,
      Finset.card_erase_of_mem hcm,
      Nat.cast_sub (Nat.one_le_iff_ne_zero.mpr (Finset.card_ne_zero_of_mem hcm)),
      hs]
    simp
  · rw [Sentence.mark_mine_of_not_mem hm]
    exact hs

theorem consistent_mark_safe {hb wb : ℤ} {M : Finset Cell}
    {st : MinesweeperAI} {c : Cell} (h : Consistent hb wb M st)
    (hc : c ∉ M) : Consistent hb wb M (st.mark_safe c) := by
  refine ⟨h.height_eq, h.width_eq, ?_, h.mines_sub, ?_⟩
  · intro x hx
    have hx' : x ∈ insert c st.safes := hx
    rcases Finset.mem_insert.mp hx' with rfl | hx'
    · exact hc
    · exact h.safes_not_mine x hx'
  · intro s hs
    have hs' : s ∈ st.knowledge.map (fun s => s.mark_safe c) := hs
    rcases List.mem_map.mp hs' with ⟨s0, hs0, rfl⟩
    exact sentence_true_mark_safe (h.sent_true s0 hs0) hc

theorem consistent_mark_mine {hb wb : ℤ} {M : Finset Cell}
    {st : MinesweeperAI} {c : Cell} (h : Consistent hb wb M st)
    (hc : c ∈ M) : Consistent hb wb M (st.mark_mine c) := by
  refine ⟨h.height_eq, h.width_eq, h.safes_not_mine, ?_, ?_⟩
  · have : insert c st.mines ⊆ M :=
      Finset.insert_subset_iff.mpr ⟨hc, h.mines_sub⟩
    exact this
  · intro s hs
    have hs' : s ∈ st.knowledge.map (fun s => s.mark_mine c) := hs
    rcases List.mem_map.mp hs' with ⟨s0, hs0, rfl⟩
    exact sentence_true_mark_mine (h.sent_true s0 hs0) hc

theorem consistent_markSafeList {hb wb : ℤ} {M : Finset Cell}
    {cs : List Cell} {st : MinesweeperAI} (h : Consistent hb wb M st)
    (hcs : ∀ x ∈ cs, x ∉ M) : Consistent hb wb M (markSafeList st cs) := by
  induction cs generalizing st with
  | nil => exact h
  | cons c cs ih =>
    show Consistent hb wb M (markSafeList (st.mark_safe c) cs)
    exact ih (consistent_mark_safe h (hcs c (List.mem_cons_self c cs)))
      (fun x hx => hcs x (List.mem_cons_of_mem c hx))

theorem consistent_markMineList {hb wb : ℤ} {M : Finset Cell}
    {cs : List Cell} {st : MinesweeperAI} (h : Consistent hb wb M st)
    (hcs : ∀ x ∈ cs, x ∈ M) : Consistent hb wb M (markMineList st cs) := by
  induction cs generalizing st with
  | nil => exact h
  | cons c cs ih =>
    show Consistent hb wb M (markMineList (st.mark_mine c) cs)
    exact ih (consistent_mark_mine h (hcs c (List.mem_cons_self c cs)))
      (fun x hx => hcs x (List.mem_cons_of_mem c hx))

theorem consistent_passStepSafe {hb wb : ℤ} {M : Finset Cell}
    {st : MinesweeperAI} (h : Consistent hb wb M st) (k : ℕ) :
    Consistent hb wb M (passStepSafe st k) := by
  unfold passStepSafe
  cases h0 : st.knowledge.get? k with
  | none => exact h
  | some s0 =>
    show Consistent hb wb M
      (if s0.count = 0 then markSafeList st (cellSort s0.cells) else st)
    by_cases hc : s0.count = 0
    · rw [if_pos hc]
      have hmem : s0 ∈ st.knowledge := List.get?_mem h0
      have hzero : ((s0.cells ∩ M).card : ℤ) = 0 := (h.sent_true s0 hmem) ▸ hc
      have hempty : s0.cells ∩ M = ∅ := by
        apply Finset.card_eq_zero.mp
        exact_mod_cast hzero
      apply consistent_markSafeList h
      intro x hx hxM
      have : x ∈ s0.cells ∩ M :=
        Finset.mem_inter.mpr ⟨mem_cellSort.mp hx, hxM⟩
      rw [hempty] at this
      exact absurd this (Finset.not_mem_empty x)
    · rw [if_neg hc]
      exact h

theorem consistent_passStepMine {hb wb : ℤ} {M : Finset Cell}
    {st : MinesweeperAI} (h : Consistent hb wb M st) (k : ℕ) :
    Consistent hb wb M (passStepMine st k) := by
  unfold passStepMine
  cases h0 : st.knowledge.get? k with
  | none => exact h
  | some s0 =>
    show Consistent hb wb M
      (if (s0.cells.card : ℤ) = s0.count then
        markMineList st (cellSort s0.cells) else st)
    by_cases hc : (s0.cells.card : ℤ) = s0.count
    · rw [if_pos hc]
      have hmem : s0 ∈ st.knowledge := List.get?_mem h0
      have htrue := h.sent_true s0 hmem
      have hcards : (s0.cells ∩ M).card = s0.cells.card := by
        have : ((s0.cells ∩ M).card : ℤ) = (s0.cells.card : ℤ) := by
          rw [← htrue, hc]
        exact_mod_cast this
      have hfull : s0.cells ∩ M = s0.cells :=
        Finset.eq_of_subset_of_card_le Finset.inter_subset_left hcards.ge
      apply consistent_markMineList h
      intro x hx
      have hx' : x ∈ s0.cells := mem_cellSort.mp hx
      rw [← hfull] at hx'
      exact (Finset.mem_inter.mp hx').2
    · rw [if_neg hc]
      exact h

theorem consistent_passStep {hb wb : ℤ} {M : Finset Cell}
    {st : MinesweeperAI} (h : Consistent hb wb M st) (k : ℕ) :
    Consistent hb wb M (passStep st k) :=
  consistent_passStepMine (consistent_passStepSafe h k) k

theorem consistent_propagate {hb wb : ℤ} {M : Finset Cell}
    {st : MinesweeperAI} (h : Consistent hb wb M st) :
    Consistent hb wb M (propagate st) := by
  unfold propagate
  generalize List.range st.knowledge.length = l
  induction l generalizing st with
  | nil => exact h
  | cons k l ih =>
    show Consistent hb wb M (l.foldl passStep (passStep st k))
    exact ih (consistent_passStep h k)

theorem mem_all_moves {hb wb : ℤ} {x : Cell} :
    x ∈ all_moves hb wb ↔ 0 ≤ x.1 ∧ x.1 < hb ∧ 0 ≤ x.2 ∧ x.2 < wb := by
  unfold all_moves
  rw [Finset.mem_product, Finset.mem_Icc, Finset.mem_Icc]
  omega

theorem nearby_mines_eq {hb wb : ℤ} {M : Finset Cell}
    (hM : M ⊆ all_moves hb wb) (c : Cell) :
    nearby_mines hb wb M c = ((neighborsOf hb wb c ∩ M).card : ℤ) := by
  have hset : ((Finset.Icc (c.1 - 1) (c.1 + 1) ×ˢ
      Finset.Icc (c.2 - 1) (c.2 + 1)).erase c).filter
        (fun p => 0 ≤ p.1 ∧ p.1 < hb ∧ 0 ≤ p.2 ∧ p.2 < wb ∧ p ∈ M) =
      neighborsOf hb wb c ∩ M := by
    ext x
    unfold neighborsOf
    simp only [Finset.mem_filter, Finset.mem_inter, Finset.mem_sdiff]
    constructor
    · rintro ⟨hsq, h1, h2, h3, h4, hxM⟩
      have hall : x ∈ all_moves hb wb := mem_all_moves.mpr ⟨h1, h2, h3, h4⟩
      refine ⟨⟨hsq, ?_⟩, hxM⟩
      intro hg
      unfold ghost_cells at hg
      rw [Finset.mem_sdiff] at hg
      exact hg.2 hall
    · rintro ⟨⟨hsq, _⟩, hxM⟩
      have hall := hM hxM
      have hbd := mem_all_moves.mp hall
      exact ⟨hsq, hbd.1, hbd.2.1, hbd.2.2.1, hbd.2.2.2, hxM⟩
  unfold nearby_mines
  rw [hset]

theorem consistent_add_knowledge {hb wb : ℤ} {M : Finset Cell}
    {st : MinesweeperAI} {c : Cell} {n : ℤ} (h : Consistent hb wb M st)
    (hM : M ⊆ all_moves hb wb) (hc : c ∉ M)
    (hn : n = nearby_mines hb wb M c) :
    Consistent hb wb M (st.add_knowledge c n) := by
  unfold MinesweeperAI.add_knowledge
  apply consistent_propagate
  refine ⟨h.height_eq, h.width_eq, ?_, h.mines_sub, ?_⟩
  · intro x hx
    have hx' : x ∈ insert c st.safes := hx
    rcases Finset.mem_insert.mp hx' with rfl | hx'
    · exact hc
    · exact h.safes_not_mine x hx'
  · intro s hs
    have hs' : s ∈ st.knowledge ++
        [{ cells := neighborsOf st.height st.width c, count := n,
           mines := ∅, safes := ∅ }] := hs
    rcases List.mem_append.mp hs' with hold | hnew
    · exact h.sent_true s hold
    · rcases List.mem_singleton.mp hnew with rfl
      show n = _
      rw [hn, h.height_eq, h.width_eq]
      exact nearby_mines_eq hM c

theorem consistent_init (hb wb : ℤ) (M : Finset Cell) :
    Consistent hb wb M (MinesweeperAI.init hb wb) := by
  refine ⟨rfl, rfl, ?_, ?_, ?_⟩
  · intro x hx
    exact absurd hx (Finset.not_mem_empty x)
  · intro x hx
    exact absurd hx (Finset.not_mem_empty x)
  · intro s hs
    exact absurd hs (List.not_mem_nil s)

theorem consistent_runTrace {hb wb : ℤ} {M : Finset Cell}
    (hM : M ⊆ all_moves hb wb) {tr : List (Cell × ℤ)} {st : MinesweeperAI}
    (h : Consistent hb wb M st)
    (htr : ∀ p ∈ tr, p.1 ∉ M ∧ p.2 = nearby_mines hb wb M p.1) :
    Consistent hb wb M (runTrace st tr) := by
  induction tr generalizing st with
  | nil => exact h
  | cons p tr ih =>
    show Consistent hb wb M (runTrace (st.add_knowledge p.1 p.2) tr)
    have hp := htr p (List.mem_cons_self p tr)
    exact ih (consistent_add_knowledge h hM hp.1 hp.2)
      (fun q hq => htr q (List.mem_cons_of_mem p hq))

/-- Claim C1 (soundness): for any fixed mine layout M on the board, and
any sequence of add_knowledge calls in which every revealed cell is not
a mine and every count is the true in-bounds neighbor mine count, any
cell that make_safe_move returns is not a mine. -/
theorem claim_C1_soundness (hb wb : ℤ) (M : Finset Cell)
    (tr : List (Cell × ℤ)) (c : Cell) (hM : M ⊆ all_moves hb wb)
    (htr : ∀ p ∈ tr, p.1 ∉ M ∧ p.2 = nearby_mines hb wb M p.1)
    (hret : (runTrace (MinesweeperAI.init hb wb) tr).make_safe_move =
      Except.ok (some c)) :
    c ∉ M := by
  have h := consistent_runTrace hM (consistent_init hb wb M) htr
  set st := runTrace (MinesweeperAI.init hb wb) tr with hst
  unfold MinesweeperAI.make_safe_move at hret
  by_cases hsub : st.moves_made ⊆ st.safes
  · rw [if_pos hsub] at hret
    simp only [Except.ok.injEq] at hret
    have hcmem : c ∈ cellSort (st.safes \ st.moves_made) := head?_mem hret
    have hcsafe : c ∈ st.safes :=
      (Finset.mem_sdiff.mp (mem_cellSort.mp hcmem)).1
    exact h.safes_not_mine c hcsafe
  · rw [if_neg hsub] at hret
    exact absurd hret (by simp)

/-- Claim C1 (witness): on the 3 by 3 board with the mine at (0,0), the
consistent clue ((2,2),0) leads make_safe_move to return (1,1), which is
not a mine. -/
theorem claim_C1_soundness_witness :
    ({((0:ℤ),(0:ℤ))} : Finset Cell) ⊆ all_moves 3 3 ∧
    (∀ p ∈ [((((2:ℤ),(2:ℤ)) : Cell), (0:ℤ))],
      p.1 ∉ ({((0:ℤ),(0:ℤ))} : Finset Cell) ∧
      p.2 = nearby_mines 3 3 {((0:ℤ),(0:ℤ))} p.1) ∧
    (runTrace (MinesweeperAI.init 3 3) [((2,2),0)]).make_safe_move =
      Except.ok (some (1,1)) ∧
    ((1:ℤ),(1:ℤ)) ∉ ({((0:ℤ),(0:ℤ))} : Finset Cell) :=
  ⟨by decide, by decide, by rfl,
   claim_C1_soundness 3 3 {((0:ℤ),(0:ℤ))} [((2,2),0)] (1,1)
     (by decide) (by decide) (by rfl)⟩

theorem consistent_applyOp {hb wb : ℤ} {M : Finset Cell}
    {st : MinesweeperAI} {o : Op} (h : Consistent hb wb M st)
    (hM : M ⊆ all_moves hb wb) (ho : ValidOp hb wb M o) :
    Consistent hb wb M (applyOp st o) := by
  cases o with
  | clue c n => exact consistent_add_knowledge h hM ho.1 ho.2
  | msafe c => exact consistent_mark_safe h ho
  | mmine c => exact consistent_mark_mine h ho
  | smove => exact h
  | rmove => exact h

theorem consistent_runOps {hb wb : ℤ} {M : Finset Cell}
    (hM : M ⊆ all_moves hb wb) {ops : List Op} {st : MinesweeperAI}
    (h : Consistent hb wb M st) (hops : ∀ o ∈ ops, ValidOp hb wb M o) :
    Consistent hb wb M (runOps st ops) := by
  induction ops generalizing st with
  | nil => exact h
  | cons o ops ih =>
    show Consistent hb wb M (runOps (applyOp st o) ops)
    exact ih (consistent_applyOp h hM (hops o (List.mem_cons_self o ops)))
      (fun q hq => hops q (List.mem_cons_of_mem o hq))

/-- Claim C4 (amended): for every sequence of public operations that is
consistent with a fixed mine layout - clues carry true counts of
revealed non-mines, mark_safe is called only on non-mines and mark_mine
only on mines, as the engine itself does - the safes and mines sets are
disjoint afterwards (hence at every intermediate point, since prefixes
are such sequences too). Unrestricted mark sequences violate
disjointness, see the counterexample. -/
theorem claim_C4_disjoint_amended (hb wb : ℤ) (M : Finset Cell)
    (ops : List Op) (hM : M ⊆ all_moves hb wb)
    (hops : ∀ o ∈ ops, ValidOp hb wb M o) :
    (runOps (MinesweeperAI.init hb wb) ops).safes ∩
      (runOps (MinesweeperAI.init hb wb) ops).mines = ∅ := by
  have h := consistent_runOps hM (consistent_init hb wb M) hops
  apply Finset.eq_empty_of_forall_not_mem
  intro x hx
  rw [Finset.mem_inter] at hx
  exact h.safes_not_mine x hx.1 (h.mines_sub hx.2)

/-- Claim C4 (witness): a consistent sequence mixing a clue, a safe mark
and a mine mark on the 2 by 2 board with mine (0,0) keeps safes and
mines disjoint. -/
theorem claim_C4_disjoint_witness :
    ({((0:ℤ),(0:ℤ))} : Finset Cell) ⊆ all_moves 2 2 ∧
    (∀ o ∈ [Op.clue (1,1) 1, Op.msafe ((0:ℤ),(1:ℤ)), Op.mmine (0,0),
        Op.smove, Op.rmove],
      ValidOp 2 2 {((0:ℤ),(0:ℤ))} o) ∧
    (runOps (MinesweeperAI.init 2 2)
      [Op.clue (1,1) 1, Op.msafe ((0:ℤ),(1:ℤ)), Op.mmine (0,0),
        Op.smove, Op.rmove]).safes ∩
    (runOps (MinesweeperAI.init 2 2)
      [Op.clue (1,1) 1, Op.msafe ((0:ℤ),(1:ℤ)), Op.mmine (0,0),
        Op.smove, Op.rmove]).mines = ∅ :=
  ⟨by decide, by decide,
   claim_C4_disjoint_amended 2 2 {((0:ℤ),(0:ℤ))} _ (by decide) (by decide)⟩

/-- Claim C5: when moves_made is a subset of safes, make_safe_move
returns none exactly when safes minus moves_made is empty and otherwise
returns a member of safes minus moves_made; when moves_made is not a
subset of safes it raises (Except.error) instead of returning a move.
The source mutates no state here, which the embedding reflects by
make_safe_move being a function of the state only. -/
theorem claim_C5_safe_move (st : MinesweeperAI) :
    (st.moves_made ⊆ st.safes →
      (st.make_safe_move = Except.ok none ↔
        st.safes \ st.moves_made = ∅) ∧
      (∀ c : Cell, st.make_safe_move = Except.ok (some c) →
        c ∈ st.safes \ st.moves_made)) ∧
    (¬ st.moves_made ⊆ st.safes → st.make_safe_move = Except.error ()) := by
  constructor
  · intro hsub
    constructor
    · unfold MinesweeperAI.make_safe_move
      rw [if_pos hsub]
      constructor
      · intro hok
        simp only [Except.ok.injEq] at hok
        exact cellSort_nil_iff.mp (List.head?_eq_none_iff.mp hok)
      · intro hempty
        rw [hempty]
        rfl
    · intro c hc
      unfold MinesweeperAI.make_safe_move at hc
      rw [if_pos hsub] at hc
      simp only [Except.ok.injEq] at hc
      exact mem_cellSort.mp (head?_mem hc)
  · intro hsub
    unfold MinesweeperAI.make_safe_move
    rw [if_neg hsub]

/-- Claim C5 (witness): after the Scenario B clue the safe set is
exhausted and make_safe_move returns none; after the Scenario A clue it
returns the unplayed safe cell (1,1); on a state whose moves_made is not
contained in safes it raises. -/
theorem claim_C5_safe_move_witness :
    (runTrace (MinesweeperAI.init 2 2) [((1,1),1)]).moves_made ⊆
      (runTrace (MinesweeperAI.init 2 2) [((1,1),1)]).safes ∧
    (runTrace (MinesweeperAI.init 2 2) [((1,1),1)]).make_safe_move =
      Except.ok none ∧
    ((1:ℤ),(1:ℤ)) ∈ (runTrace (MinesweeperAI.init 3 3) [((2,2),0)]).safes \
      (runTrace (MinesweeperAI.init 3 3) [((2,2),0)]).moves_made ∧
    (MinesweeperAI.mk 2 2 {((0:ℤ),(0:ℤ))} ∅ ∅ []).make_safe_move =
      Except.error () :=
  ⟨by decide,
   ((claim_C5_safe_move _).1 (by decide)).1.mpr
     (Finset.card_eq_zero.mp (by decide)),
   ((claim_C5_safe_move _).1 (by decide)).2 (1,1) (by rfl),
   (claim_C5_safe_move _).2 (by decide)⟩

/-- Claim C10: make_random_move returns none - modelling the KeyError
that Python set pop raises on an empty set - exactly when every board
cell is in moves_made or mines, and otherwise returns a board cell that
is neither played nor a known mine. The source assigns no attribute
here, which the embedding reflects by make_random_move being a function
of the state only. -/
theorem claim_C10_random_move (st : MinesweeperAI) :
    (st.make_random_move = none ↔
      all_moves st.height st.width \ (st.mines ∪ st.moves_made) = ∅) ∧
    (∀ c : Cell, st.make_random_move = some c →
      c ∈ all_moves st.height st.width \ (st.mines ∪ st.moves_made)) := by
  constructor
  · constructor
    · intro h
      unfold MinesweeperAI.make_random_move at h
      exact cellSort_nil_iff.mp (List.head?_eq_none_iff.mp h)
    · intro h
      show (cellSort _).head? = none
      rw [h]
      rfl
  · intro c hc
    unfold MinesweeperAI.make_random_move at hc
    exact mem_cellSort.mp (head?_mem hc)

/-- Claim C10 (witness): on a 1 by 1 board whose only cell was played,
make_random_move raises (none); from the fresh 2 by 2 state it returns
the unplayed non-mine cell (0,0). -/
theorem claim_C10_random_move_witness :
    (MinesweeperAI.mk 1 1 {((0:ℤ),(0:ℤ))} ∅ ∅ []).make_random_move = none ∧
    ((0:ℤ),(0:ℤ)) ∈ all_moves (MinesweeperAI.init 2 2).height
      (MinesweeperAI.init 2 2).width \
      ((MinesweeperAI.init 2 2).mines ∪ (MinesweeperAI.init 2 2).moves_made) :=
  ⟨(claim_C10_random_move _).1.mpr (Finset.card_eq_zero.mp (by decide)),
   (claim_C10_random_move _).2 (0,0) (by rfl)⟩

/-- Claim C4 (counterexample): the claim quantifies over ALL operation
sequences; calling mark_safe and then mark_mine with the same cell is
such a sequence and leaves the cell in both safes and mines, so the
disjointness invariant fails for unconstrained sequences. -/
theorem claim_C4_counterexample :
    ((0:ℤ),(0:ℤ)) ∈ (runOps (MinesweeperAI.init 2 2) [Op.msafe (0,0), Op.mmine (0,0)]).safes ∧
    ((0:ℤ),(0:ℤ)) ∈ (runOps (MinesweeperAI.init 2 2) [Op.msafe (0,0), Op.mmine (0,0)]).mines := by
  decide
